import Mathlib

/-!
Verification development for the JSONL aggregation program
(`twitter_data_processing.py`).  The single non-trivial function of the
repository, `process_jsonl`, is embedded shallowly below:

* an input line is modelled by `Line`: either a line on which `json.loads`
  raises `JSONDecodeError`, or a decoded JSON object whose four relevant
  fields (`id`, `created_at`, `author_id`, `lang`) are extracted with
  `dict.get` (absent and JSON-null are conflated, both are falsy);
  field values are modelled as strings, Python truthiness of such a value
  is "present and non-empty";
* `datetime.strptime(created_at, '%Y-%m-%dT%H:%M:%S.%fZ')` is embedded by
  `parseTimestamp`, mirroring CPython's `_strptime` regex for that format
  (4-digit year, 1-2 digit month/day/hour/minute/second with the regex
  value ranges, 1-6 digit fraction right-padded to microseconds,
  case-insensitive literals, whole-string match) followed by the
  `datetime` constructor's range checks (year at least 1, day bounded by
  the month length with leap years); failure is `none`, which the source
  leaves uncaught (plain `ValueError`, not `json.JSONDecodeError`);
* Python `dict` (insertion ordered), `set` (membership, modelled
  insertion ordered) and `Counter` are modelled by association lists with
  the exact update operations of the source (`setdefault(...).add`,
  `set.add`, `counter[k] += 1`);
* `datetime` comparison is lexicographic on the seven components;
* the per-line `try/except` block is `lineStep`; the loop over the file
  is `run`, which also collects the printed diagnostics and propagates
  the uncaught exception.
-/

/-! ## Decimal rendering: Python `str(n)` and `format(n, '02d')` for naturals -/

/-- Character of a decimal digit, as produced by Python integer formatting. -/
def digitCh (d : Nat) : Char := Char.ofNat (48 + d)

/-- Fuelled digit-list construction for the decimal representation. -/
def decCharsAux : Nat → Nat → List Char
  | 0, _ => []
  | fuel + 1, n => if n < 10 then [digitCh n] else decCharsAux fuel (n / 10) ++ [digitCh (n % 10)]

/-- Decimal digits of a natural number, most significant first. -/
def decChars (n : Nat) : List Char := decCharsAux (n + 1) n

/-- Python `str(n)` for a natural number: plain decimal, no padding. -/
def decRepr (n : Nat) : String := String.mk (decChars n)

/-- Python `format(n, '02d')` for a natural number: pad to width two with a zero. -/
def fmt02 (n : Nat) : String := if n < 10 then "0" ++ decRepr n else decRepr n

/-! ## Datetimes and their order -/

/-- Result of a successful `datetime.strptime` call: a naive datetime. -/
structure DateTime where
  year : Nat
  month : Nat
  day : Nat
  hour : Nat
  minute : Nat
  second : Nat
  microsecond : Nat
deriving DecidableEq

/-- Component tuple of a datetime, in comparison order. -/
def dtList (d : DateTime) : List Nat :=
  [d.year, d.month, d.day, d.hour, d.minute, d.second, d.microsecond]

/-- Lexicographic strict order on lists of naturals, mirroring Python tuple
comparison (a proper prefix is smaller). -/
def lexLt : List Nat → List Nat → Bool
  | [], [] => false
  | [], _ :: _ => true
  | _ :: _, [] => false
  | a :: as, b :: bs => if a < b then true else if b < a then false else lexLt as bs

/-- Python `<` on datetimes. -/
def dtLt (a b : DateTime) : Bool := lexLt (dtList a) (dtList b)

/-- Python `<=` on datetimes (total order, so the negation of `>`). -/
def dtLe (a b : DateTime) : Bool := !(dtLt b a)

/-! ## The strptime parser for the fixed format -/

/-- Numeric value of a digit character. -/
def digVal (c : Char) : Nat := c.toNat - 48

/-- Split a leading run of digit characters off a character list. -/
def readDigits : List Char → (List Nat × List Char)
  | [] => ([], [])
  | c :: cs =>
    if c.isDigit then
      let (ds, r) := readDigits cs
      (digVal c :: ds, r)
    else ([], c :: cs)

/-- Value of a digit list, most significant first. -/
def digitsVal (ds : List Nat) : Nat := ds.foldl (fun a d => a * 10 + d) 0

/-- Directive `%Y`: exactly four digit characters. -/
def readYear : List Char → Option (Nat × List Char)
  | a :: b :: c :: d :: r =>
    if a.isDigit && b.isDigit && c.isDigit && d.isDigit then
      some (digitsVal [digVal a, digVal b, digVal c, digVal d], r)
    else none
  | _ => none

/-- Directives `%m`, `%d`, `%H`, `%M`, `%S`: the full leading digit run, which
must have one or two digits and a value inside the directive's range (the
following literal separator makes the regex consume the whole run). -/
def readNum2 (lo hi : Nat) (cs : List Char) : Option (Nat × List Char) :=
  let p := readDigits cs
  if (p.1.length = 1 || p.1.length = 2) && (lo ≤ digitsVal p.1 && digitsVal p.1 ≤ hi) then
    some (digitsVal p.1, p.2)
  else none

/-- Directive `%f`: one to six digits, right-padded with zeros to microseconds. -/
def readFrac (cs : List Char) : Option (Nat × List Char) :=
  let p := readDigits cs
  if 1 ≤ p.1.length && p.1.length ≤ 6 then some (digitsVal p.1 * 10 ^ (6 - p.1.length), p.2)
  else none

/-- Literal character of the format (strptime compiles its regex with
IGNORECASE, so a letter matches either case). -/
def expectCh (c : Char) : List Char → Option (List Char)
  | [] => none
  | x :: r => if x = c ∨ x.toLower = c.toLower then some r else none

/-- Leap-year test of the Gregorian calendar, as in `calendar.isleap`. -/
def isLeap (y : Nat) : Bool := (y % 4 == 0 && y % 100 != 0) || y % 400 == 0

/-- Length of a month, as enforced by the `datetime` constructor. -/
def daysInMonth (y m : Nat) : Nat :=
  if m == 2 then (if isLeap y then 29 else 28)
  else if m == 4 || m == 6 || m == 9 || m == 11 then 30
  else 31

/-- Embedding of `datetime.strptime(s, '%Y-%m-%dT%H:%M:%S.%fZ')`: `some` on
success, `none` when the call raises `ValueError` (regex mismatch, trailing
input, or constructor range check: year at least 1, second at most 59, day at
most the month's length). -/
def parseTimestamp (s : String) : Option DateTime :=
  (readYear s.data).bind fun py =>
  (expectCh '-' py.2).bind fun c1 =>
  (readNum2 1 12 c1).bind fun pmo =>
  (expectCh '-' pmo.2).bind fun c2 =>
  (readNum2 1 31 c2).bind fun pda =>
  (expectCh 'T' pda.2).bind fun c3 =>
  (readNum2 0 23 c3).bind fun ph =>
  (expectCh ':' ph.2).bind fun c4 =>
  (readNum2 0 59 c4).bind fun pmi =>
  (expectCh ':' pmi.2).bind fun c5 =>
  (readNum2 0 59 c5).bind fun pse =>
  (expectCh '.' pse.2).bind fun c6 =>
  (readFrac c6).bind fun pf =>
  (expectCh 'Z' pf.2).bind fun c7 =>
  match c7 with
  | [] =>
    if 1 ≤ py.1 && pda.1 ≤ daysInMonth py.1 pmo.1 then
      some ⟨py.1, pmo.1, pda.1, ph.1, pmi.1, pse.1, pf.1⟩
    else none
  | _ :: _ => none

/-! ## Records, lines, diagnostics -/

/-- Fields of a decoded JSON object that the program reads with `dict.get`.
A value is a string; `none` is an absent field (or JSON null). -/
structure Tweet where
  id : Option String
  created_at : Option String
  author_id : Option String
  lang : Option String
deriving DecidableEq

/-- Python truthiness of an extracted field value. -/
def truthy : Option String → Bool
  | none => false
  | some s => !(s == "")

/-- Input line: either text on which `json.loads` raises `JSONDecodeError`,
or a line that decodes to a JSON object. -/
inductive Line where
  | invalid (raw : String)
  | record (t : Tweet)
deriving DecidableEq

/-- Diagnostics printed by the two `except` handlers of the loop. -/
inductive Diag where
  | invalidJson (raw : String)
  | missingFields (l : Line)
deriving DecidableEq

/-- Exceptions that the loop body can raise. -/
inductive Exc where
  | jsonDecode
  | keyError
  | valueError
deriving DecidableEq

/-! ## The accumulator state and its update operations -/

/-- Accumulated statistics of `process_jsonl`, with the source's names.
Python `dict` and `set` are modelled as insertion-ordered association lists
and duplicate-free insertion-ordered lists. -/
structure AggState where
  monthly_tweets : List (String × List String)
  total_tweets : Nat
  unique_authors : List String
  tweets_by_language : List (String × Nat)
  first_tweet_date : Option DateTime
  last_tweet_date : Option DateTime
deriving DecidableEq

/-- Initial accumulator of `process_jsonl`. -/
def initState : AggState := ⟨[], 0, [], [], none, none⟩

/-- Python `set.add`. -/
def setAdd (l : List String) (x : String) : List String := if x ∈ l then l else l ++ [x]

/-- Python `monthly_tweets.setdefault(k, set()).add(x)`. -/
def bucketAdd : List (String × List String) → String → String → List (String × List String)
  | [], k, x => [(k, [x])]
  | (k', l) :: rest, k, x =>
    if k' = k then (k', setAdd l x) :: rest else (k', l) :: bucketAdd rest k x

/-- Python `counter[g] += 1` on a `Counter`. -/
def counterInc : List (String × Nat) → String → List (String × Nat)
  | [], g => [(g, 1)]
  | (g', n) :: rest, g =>
    if g' = g then (g', n + 1) :: rest else (g', n) :: counterInc rest g

/-- Running-minimum update: `if first_tweet_date is None or date < first_tweet_date`. -/
def updFirst (f : Option DateTime) (d : DateTime) : Option DateTime :=
  match f with
  | none => some d
  | some a => if dtLt d a then some d else some a

/-- Running-maximum update: `if last_tweet_date is None or date > last_tweet_date`. -/
def updLast (l : Option DateTime) (d : DateTime) : Option DateTime :=
  match l with
  | none => some d
  | some a => if dtLt a d then some d else some a

/-- Month key of the source: the f-string `tweet_ids_{date.year}_{date.month:02d}`. -/
def month_key (d : DateTime) : String :=
  "tweet_ids_" ++ decRepr d.year ++ "_" ++ fmt02 d.month

/-- Updates performed for a line that passes the `if tweet_id and created_at`
guard and whose timestamp parses, in source order: first/last date, month
bucket, total, author set, language counter. -/
def includeStep (st : AggState) (t : Tweet) (d : DateTime) : AggState :=
  { monthly_tweets := bucketAdd st.monthly_tweets (month_key d) (t.id.getD "")
    total_tweets := st.total_tweets + 1
    unique_authors :=
      if truthy t.author_id then setAdd st.unique_authors (t.author_id.getD "")
      else st.unique_authors
    tweets_by_language :=
      if truthy t.lang then counterInc st.tweets_by_language (t.lang.getD "")
      else st.tweets_by_language
    first_tweet_date := updFirst st.first_tweet_date d
    last_tweet_date := updLast st.last_tweet_date d }

/-- Body of the `try` block after decoding: field extraction via `dict.get`
(total, never a `KeyError`), the truthiness guard, the `strptime` call
(raising `ValueError` on failure), and the statistic updates. -/
def tryBody (st : AggState) (t : Tweet) : Except Exc AggState :=
  if truthy t.id && truthy t.created_at then
    match parseTimestamp (t.created_at.getD "") with
    | none => .error .valueError
    | some date => .ok (includeStep st t date)
  else .ok st

/-- Decoding `json.loads(line)` for a modelled line. -/
def decodeLine : Line → Except Exc Tweet
  | .invalid _ => .error .jsonDecode
  | .record t => .ok t

/-- One iteration of the loop: the `try` block and its two handlers.
`json.JSONDecodeError` and `KeyError` are caught and print a diagnostic;
any other exception (the `ValueError` of `strptime`) propagates. -/
def lineStep (st : AggState) (l : Line) : Except Exc (AggState × List Diag) :=
  match (match decodeLine l with
         | .error e => Except.error e
         | .ok t => tryBody st t : Except Exc AggState) with
  | .ok st' => .ok (st', [])
  | .error .jsonDecode =>
    .ok (st, [Diag.invalidJson (match l with | .invalid raw => raw | .record _ => "")])
  | .error .keyError => .ok (st, [Diag.missingFields l])
  | .error .valueError => .error .valueError

/-- The loop of `process_jsonl` over the file's lines: threads the
accumulator, collects the printed diagnostics in order, and propagates an
uncaught exception (aborting the run). -/
def run : AggState → List Line → List Diag × Except Exc AggState
  | st, [] => ([], Except.ok st)
  | st, l :: ls =>
    match lineStep st l with
    | .ok (st', ds) =>
      match run st' ls with
      | (ds2, r) => (ds ++ ds2, r)
    | .error e => ([], .error e)

/-- Embedding of `process_jsonl`: run the loop from the empty accumulator.
The first component is the printed diagnostics; the second is either the
returned tuple (as `AggState`) or the uncaught exception. -/
def process_jsonl (lines : List Line) : List Diag × Except Exc AggState :=
  run initState lines

/-! ## Predicates on lines and accessors on states -/

/-- Lines passing the `if tweet_id and created_at` guard. -/
def includedB : Line → Bool
  | .record t => truthy t.id && truthy t.created_at
  | .invalid _ => false

/-- Lines on which the loop raises an uncaught `ValueError`: guard passed,
timestamp does not parse. -/
def abortsB : Line → Bool
  | .record t =>
    truthy t.id && truthy t.created_at && !(parseTimestamp (t.created_at.getD "")).isSome
  | .invalid _ => false

/-- Association-list lookup (first match), as Python dict lookup. -/
def alookup {α : Type} : List (String × α) → String → Option α
  | [], _ => none
  | (k', v) :: rest, k => if k' = k then some v else alookup rest k

/-- Identifier set of one month bucket (empty when the key is absent). -/
def bucketIds (st : AggState) (k : String) : List String :=
  (alookup st.monthly_tweets k).getD []

/-- Presence of a month key in the mapping. -/
def hasBucket (st : AggState) (k : String) : Prop :=
  (alookup st.monthly_tweets k).isSome = true

/-- Count stored for a language (0 when absent, as `Counter` lookup). -/
def langCount (st : AggState) (g : String) : Nat :=
  (alookup st.tweets_by_language g).getD 0

/-! ## Small-step lemmas for the three kinds of line -/

theorem lineStep_invalid (st : AggState) (raw : String) :
    lineStep st (.invalid raw) = .ok (st, [Diag.invalidJson raw]) := rfl

theorem lineStep_skip (st : AggState) (t : Tweet)
    (h : (truthy t.id && truthy t.created_at) = false) :
    lineStep st (.record t) = .ok (st, []) := by
  have h' : ¬(truthy t.id = true ∧ truthy t.created_at = true) := by
    intro hc
    rw [hc.1, hc.2] at h
    simp at h
  simp [lineStep, decodeLine, tryBody, h']

theorem lineStep_abort (st : AggState) (t : Tweet)
    (h : (truthy t.id && truthy t.created_at) = true)
    (hp : parseTimestamp (t.created_at.getD "") = none) :
    lineStep st (.record t) = .error .valueError := by
  obtain ⟨h1, h2⟩ := Bool.and_eq_true_iff.mp h
  simp [lineStep, decodeLine, tryBody, h1, h2, hp]

theorem lineStep_incl (st : AggState) (t : Tweet) (d : DateTime)
    (h : (truthy t.id && truthy t.created_at) = true)
    (hp : parseTimestamp (t.created_at.getD "") = some d) :
    lineStep st (.record t) = .ok (includeStep st t d, []) := by
  obtain ⟨h1, h2⟩ := Bool.and_eq_true_iff.mp h
  simp [lineStep, decodeLine, tryBody, h1, h2, hp]

theorem run_nil (st : AggState) : run st [] = ([], .ok st) := rfl

theorem run_cons_eq (st : AggState) (l : Line) (ls : List Line) :
    run st (l :: ls) =
      (match lineStep st l with
       | .ok (st', ds) =>
         match run st' ls with
         | (ds2, r) => (ds ++ ds2, r)
       | .error e => ([], .error e)) := rfl

theorem run_cons_ok {st st' : AggState} {l : Line} {ds : List Diag} (ls : List Line)
    (h : lineStep st l = .ok (st', ds)) :
    run st (l :: ls) = (ds ++ (run st' ls).1, (run st' ls).2) := by
  rw [run_cons_eq, h]

theorem run_cons_err {st : AggState} {l : Line} {e : Exc} (ls : List Line)
    (h : lineStep st l = .error e) :
    run st (l :: ls) = ([], .error e) := by
  rw [run_cons_eq, h]

/-! ## The lexicographic order on component lists -/

theorem lexLt_irrefl : ∀ a, lexLt a a = false
  | [] => rfl
  | _ :: xs => by simp [lexLt, lexLt_irrefl xs]

theorem lexLt_trans : ∀ a b c, lexLt a b = true → lexLt b c = true → lexLt a c = true := by
  intro a
  induction a with
  | nil =>
    intro b c h1 h2
    cases b with
    | nil => simp [lexLt] at h1
    | cons y ys =>
      cases c with
      | nil => simp [lexLt] at h2
      | cons z zs => simp [lexLt]
  | cons x xs ih =>
    intro b c h1 h2
    cases b with
    | nil => simp [lexLt] at h1
    | cons y ys =>
      cases c with
      | nil => simp [lexLt] at h2
      | cons z zs =>
        simp only [lexLt] at h1 h2 ⊢
        split_ifs at h1 h2 ⊢ <;> first | rfl | omega | exact ih ys zs h1 h2

theorem lexLt_conn : ∀ a b, lexLt a b = false → lexLt b a = false → a = b := by
  intro a
  induction a with
  | nil =>
    intro b h1 _
    cases b with
    | nil => rfl
    | cons y ys => simp [lexLt] at h1
  | cons x xs ih =>
    intro b h1 h2
    cases b with
    | nil => simp [lexLt] at h2
    | cons y ys =>
      simp only [lexLt] at h1 h2
      split_ifs at h1 h2
      have hx : x = y := by omega
      have ht : xs = ys := ih ys h1 h2
      rw [hx, ht]

theorem lexLt_asymm : ∀ a b, lexLt a b = true → lexLt b a = false := by
  intro a
  induction a with
  | nil =>
    intro b h
    cases b with
    | nil => simp [lexLt] at h
    | cons y ys => simp [lexLt]
  | cons x xs ih =>
    intro b h
    cases b with
    | nil => simp [lexLt] at h
    | cons y ys =>
      simp only [lexLt] at h ⊢
      split_ifs at h ⊢ <;> first | rfl | omega | exact ih ys h

/-! ## Injectivity of the decimal rendering and of the month key -/

/-- Left-fold decimal evaluation of a digit-character list. -/
def parseNatAux : Nat → List Char → Nat
  | acc, [] => acc
  | acc, c :: cs => parseNatAux (acc * 10 + digVal c) cs

theorem parseNatAux_append (cs1 cs2 : List Char) :
    ∀ acc, parseNatAux acc (cs1 ++ cs2) = parseNatAux (parseNatAux acc cs1) cs2 := by
  induction cs1 with
  | nil => intro acc; rfl
  | cons c cs ih =>
    intro acc
    show parseNatAux (acc * 10 + digVal c) (cs ++ cs2)
        = parseNatAux (parseNatAux (acc * 10 + digVal c) cs) cs2
    exact ih (acc * 10 + digVal c)

theorem digVal_digitCh : ∀ d, d < 10 → digVal (digitCh d) = d := by decide

theorem digitCh_isDigit : ∀ d, d < 10 → (digitCh d).isDigit = true := by decide

theorem decCharsAux_spec :
    ∀ fuel n acc, n < fuel →
      parseNatAux acc (decCharsAux fuel n) = acc * 10 ^ (decCharsAux fuel n).length + n := by
  intro fuel
  induction fuel with
  | zero => intro n acc h; omega
  | succ fuel ih =>
    intro n acc h
    by_cases hn : n < 10
    · rw [show decCharsAux (fuel + 1) n = [digitCh n] from by rw [decCharsAux, if_pos hn]]
      show parseNatAux (acc * 10 + digVal (digitCh n)) [] = acc * 10 ^ [digitCh n].length + n
      rw [show parseNatAux (acc * 10 + digVal (digitCh n)) [] = acc * 10 + digVal (digitCh n)
        from rfl]
      rw [digVal_digitCh n hn, List.length_singleton, pow_one]
    · have hrec : n / 10 < fuel := by omega
      rw [show decCharsAux (fuel + 1) n = decCharsAux fuel (n / 10) ++ [digitCh (n % 10)] from by
        rw [decCharsAux, if_neg hn]]
      rw [parseNatAux_append]
      rw [ih (n / 10) acc hrec]
      have hdm : n / 10 * 10 + n % 10 = n := by omega
      rw [show parseNatAux (acc * 10 ^ (decCharsAux fuel (n / 10)).length + n / 10)
            [digitCh (n % 10)]
          = (acc * 10 ^ (decCharsAux fuel (n / 10)).length + n / 10) * 10
            + digVal (digitCh (n % 10)) from rfl]
      rw [digVal_digitCh (n % 10) (by omega), List.length_append, List.length_singleton]
      calc (acc * 10 ^ (decCharsAux fuel (n / 10)).length + n / 10) * 10 + n % 10
          = acc * (10 ^ (decCharsAux fuel (n / 10)).length * 10) + (n / 10 * 10 + n % 10) := by
            ring
        _ = acc * 10 ^ ((decCharsAux fuel (n / 10)).length + 1) + n := by
            rw [hdm, pow_succ]

theorem parseNat_decChars (n : Nat) : parseNatAux 0 (decChars n) = n := by
  have h := decCharsAux_spec (n + 1) n 0 (by omega)
  simpa using h

theorem decChars_inj {m n : Nat} (h : decChars m = decChars n) : m = n := by
  have hm := parseNat_decChars m
  rw [h, parseNat_decChars n] at hm
  exact hm.symm

theorem decCharsAux_all_digits :
    ∀ fuel n c, c ∈ decCharsAux fuel n → c.isDigit = true := by
  intro fuel
  induction fuel with
  | zero => intro n c hc; simp [decCharsAux] at hc
  | succ fuel ih =>
    intro n c hc
    by_cases hn : n < 10
    · simp [decCharsAux, hn] at hc
      rw [hc]
      exact digitCh_isDigit n hn
    · simp only [decCharsAux, if_neg hn, List.mem_append, List.mem_singleton] at hc
      rcases hc with hc | hc
      · exact ih (n / 10) c hc
      · rw [hc]; exact digitCh_isDigit (n % 10) (by omega)

theorem underscore_not_in_decChars (n : Nat) : '_' ∉ decChars n := by
  intro h
  have := decCharsAux_all_digits (n + 1) n '_' h
  simp [Char.isDigit] at this

/-- Split of two lists at the first occurrence of a separator absent from the
left parts. -/
theorem append_sep_inj {x : Char} :
    ∀ (as bs cs ds : List Char), x ∉ as → x ∉ bs →
      as ++ x :: cs = bs ++ x :: ds → as = bs ∧ cs = ds := by
  intro as
  induction as with
  | nil =>
    intro bs cs ds _ hb h
    cases bs with
    | nil => simpa using h
    | cons b bs' =>
      simp only [List.nil_append, List.cons_append, List.cons.injEq] at h
      have hx : x ∈ b :: bs' := by rw [← h.1]; exact List.mem_cons_self x _
      exact (hb hx).elim
  | cons a as' ih =>
    intro bs cs ds ha hb h
    cases bs with
    | nil =>
      simp only [List.nil_append, List.cons_append, List.cons.injEq] at h
      have hx : x ∈ a :: as' := by rw [h.1]; exact List.mem_cons_self x _
      exact (ha hx).elim
    | cons b bs' =>
      simp only [List.cons_append, List.cons.injEq] at h
      have ha' : x ∉ as' := fun hx => ha (List.mem_cons_of_mem a hx)
      have hb' : x ∉ bs' := fun hx => hb (List.mem_cons_of_mem b hx)
      obtain ⟨h1, h2⟩ := ih bs' cs ds ha' hb' h.2
      exact ⟨by rw [h.1, h1], h2⟩

theorem fmt02_inj_small :
    ∀ m1, m1 < 13 → ∀ m2, m2 < 13 → fmt02 m1 = fmt02 m2 → m1 = m2 := by decide

/-- Injectivity of the source's month key on the year/month pair, for months
in the range the parser produces. -/
theorem month_key_inj {d1 d2 : DateTime}
    (hm1 : d1.month < 13) (hm2 : d2.month < 13)
    (h : month_key d1 = month_key d2) : d1.year = d2.year ∧ d1.month = d2.month := by
  have hdata : ("tweet_ids_".data ++ decChars d1.year) ++ ("_".data ++ (fmt02 d1.month).data)
      = ("tweet_ids_".data ++ decChars d2.year) ++ ("_".data ++ (fmt02 d2.month).data) := by
    have := congrArg String.data h
    simpa [month_key, decRepr, decChars] using this
  simp only [List.append_assoc] at hdata
  have hcancel := List.append_cancel_left hdata
  have hsep : decChars d1.year ++ '_' :: (fmt02 d1.month).data
      = decChars d2.year ++ '_' :: (fmt02 d2.month).data := by
    simpa using hcancel
  obtain ⟨hy, hm⟩ := append_sep_inj (decChars d1.year) (decChars d2.year) _ _
    (underscore_not_in_decChars d1.year) (underscore_not_in_decChars d2.year) hsep
  refine ⟨decChars_inj hy, ?_⟩
  have hdm : (fmt02 d1.month).data = (fmt02 d2.month).data := by
    simpa using hm
  exact fmt02_inj_small d1.month hm1 d2.month hm2 (String.ext hdm)

/-! ## Bounds produced by the parser, and order glue on datetimes -/

theorem readNum2_bounds {lo hi v : Nat} {cs r : List Char}
    (h : readNum2 lo hi cs = some (v, r)) : lo ≤ v ∧ v ≤ hi := by
  simp only [readNum2] at h
  split_ifs at h with hc
  simp only [Option.some.injEq, Prod.mk.injEq] at h
  simp only [Bool.and_eq_true, Bool.or_eq_true, decide_eq_true_eq] at hc
  omega

/-- Month bound delivered by the parser: any parsed timestamp has a month
between 1 and 12. -/
theorem parseTimestamp_month_bounds {s : String} {d : DateTime}
    (h : parseTimestamp s = some d) : 1 ≤ d.month ∧ d.month ≤ 12 := by
  unfold parseTimestamp at h
  simp only [Option.bind_eq_some] at h
  obtain ⟨py, _, h⟩ := h
  obtain ⟨c1, _, h⟩ := h
  obtain ⟨pmo, hmo, h⟩ := h
  obtain ⟨c2, _, h⟩ := h
  obtain ⟨pda, _, h⟩ := h
  obtain ⟨c3, _, h⟩ := h
  obtain ⟨ph, _, h⟩ := h
  obtain ⟨c4, _, h⟩ := h
  obtain ⟨pmi, _, h⟩ := h
  obtain ⟨c5, _, h⟩ := h
  obtain ⟨pse, _, h⟩ := h
  obtain ⟨c6, _, h⟩ := h
  obtain ⟨pf, _, h⟩ := h
  obtain ⟨c7, _, h⟩ := h
  cases c7 with
  | cons _ _ => exact absurd h (by simp)
  | nil =>
    split_ifs at h with hok
    obtain ⟨v, r⟩ := pmo
    rw [Option.some.injEq] at h
    have hd : d.month = v := by rw [← h]
    rw [hd]
    exact readNum2_bounds hmo

/-! ## Order glue on datetimes -/

theorem dtLe_refl (a : DateTime) : dtLe a a = true := by
  simp [dtLe, dtLt, lexLt_irrefl]

theorem dtLe_of_dtLt {a b : DateTime} (h : dtLt a b = true) : dtLe a b = true := by
  simp [dtLe, dtLt] at h ⊢
  exact lexLt_asymm _ _ h

theorem dtLe_of_not_dtLt {a b : DateTime} (h : dtLt a b = false) : dtLe b a = true := by
  simp only [dtLe, dtLt, Bool.not_eq_true'] at h ⊢
  exact h

theorem dtLe_antisymm {a b : DateTime} (h1 : dtLe a b = true) (h2 : dtLe b a = true) :
    a = b := by
  simp only [dtLe, dtLt, Bool.not_eq_true'] at h1 h2
  have hl := lexLt_conn _ _ h2 h1
  have : a.year = b.year ∧ a.month = b.month ∧ a.day = b.day ∧ a.hour = b.hour
      ∧ a.minute = b.minute ∧ a.second = b.second ∧ a.microsecond = b.microsecond := by
    simpa [dtList] using hl
  cases a
  cases b
  simp only at this
  obtain ⟨e1, e2, e3, e4, e5, e6, e7⟩ := this
  rw [e1, e2, e3, e4, e5, e6, e7]

theorem dtLe_trans {a b c : DateTime} (h1 : dtLe a b = true) (h2 : dtLe b c = true) :
    dtLe a c = true := by
  simp only [dtLe, dtLt, Bool.not_eq_true'] at h1 h2 ⊢
  cases hca : lexLt (dtList c) (dtList a) with
  | false => rfl
  | true =>
    cases hbc : lexLt (dtList b) (dtList c) with
    | true =>
      have := lexLt_trans _ _ _ hbc hca
      rw [h1] at this
      cases this
    | false =>
      have heq := lexLt_conn _ _ hbc h2
      rw [← heq] at hca
      rw [h1] at hca
      cases hca

/-! ## Lemmas on the container update operations -/

theorem setAdd_mem (l : List String) (x a : String) : a ∈ setAdd l x ↔ a = x ∨ a ∈ l := by
  unfold setAdd
  split_ifs with h
  · constructor
    · exact fun ha => Or.inr ha
    · rintro (rfl | ha)
      · exact h
      · exact ha
  · simp [List.mem_append, or_comm]

theorem alookup_bucketAdd : ∀ (m : List (String × List String)) (k x k' : String),
    alookup (bucketAdd m k x) k'
      = if k' = k then some (setAdd ((alookup m k).getD []) x) else alookup m k' := by
  intro m
  induction m with
  | nil =>
    intro k x k'
    by_cases h : k' = k
    · subst h
      simp [bucketAdd, alookup, setAdd]
    · simp [bucketAdd, alookup, h, Ne.symm h]
  | cons p rest ih =>
    intro k x k'
    obtain ⟨k0, l0⟩ := p
    by_cases h0 : k0 = k
    · subst h0
      by_cases h' : k' = k0
      · subst h'
        simp [bucketAdd, alookup]
      · simp [bucketAdd, alookup, h', Ne.symm h']
    · by_cases h' : k' = k0
      · subst h'
        simp [bucketAdd, alookup, h0, fun hh : k' = k => h0 (hh ▸ rfl)]
      · simp [bucketAdd, alookup, h0, Ne.symm h', ih k x k']

theorem alookup_counterInc : ∀ (c : List (String × Nat)) (g g' : String),
    alookup (counterInc c g) g'
      = if g' = g then some ((alookup c g).getD 0 + 1) else alookup c g' := by
  intro c
  induction c with
  | nil =>
    intro g g'
    by_cases h : g' = g
    · subst h
      simp [counterInc, alookup]
    · simp [counterInc, alookup, h, Ne.symm h]
  | cons p rest ih =>
    intro g g'
    obtain ⟨g0, n0⟩ := p
    by_cases h0 : g0 = g
    · subst h0
      by_cases h' : g' = g0
      · subst h'
        simp [counterInc, alookup]
      · simp [counterInc, alookup, h', Ne.symm h']
    · by_cases h' : g' = g0
      · subst h'
        simp [counterInc, alookup, h0, fun hh : g' = g => h0 (hh ▸ rfl)]
      · simp [counterInc, alookup, h0, Ne.symm h', ih g g']

/-! ## Running minimum and maximum over a list of dates -/

/-- Folded form of the running first-date update. -/
def minFold (init : Option DateTime) (ds : List DateTime) : Option DateTime :=
  ds.foldl updFirst init

/-- Folded form of the running last-date update. -/
def maxFold (init : Option DateTime) (ds : List DateTime) : Option DateTime :=
  ds.foldl updLast init

theorem updFirst_isSome (f : Option DateTime) (d : DateTime) : ∃ a, updFirst f d = some a := by
  cases f with
  | none => exact ⟨d, rfl⟩
  | some a =>
    by_cases h : dtLt d a = true
    · exact ⟨d, by simp [updFirst, h]⟩
    · exact ⟨a, by simp [updFirst, h]⟩

theorem updLast_isSome (f : Option DateTime) (d : DateTime) : ∃ a, updLast f d = some a := by
  cases f with
  | none => exact ⟨d, rfl⟩
  | some a =>
    by_cases h : dtLt a d = true
    · exact ⟨d, by simp [updLast, h]⟩
    · exact ⟨a, by simp [updLast, h]⟩

theorem minFold_eq_none : ∀ (ds : List DateTime) (init : Option DateTime),
    minFold init ds = none → init = none ∧ ds = [] := by
  intro ds
  induction ds with
  | nil => exact fun init h => ⟨h, rfl⟩
  | cons d ds ih =>
    intro init h
    obtain ⟨hu, _⟩ := ih (updFirst init d) h
    obtain ⟨a, ha⟩ := updFirst_isSome init d
    rw [ha] at hu
    cases hu

theorem maxFold_eq_none : ∀ (ds : List DateTime) (init : Option DateTime),
    maxFold init ds = none → init = none ∧ ds = [] := by
  intro ds
  induction ds with
  | nil => exact fun init h => ⟨h, rfl⟩
  | cons d ds ih =>
    intro init h
    obtain ⟨hu, _⟩ := ih (updLast init d) h
    obtain ⟨a, ha⟩ := updLast_isSome init d
    rw [ha] at hu
    cases hu

theorem minFold_spec : ∀ (ds : List DateTime) (init : Option DateTime) (f : DateTime),
    minFold init ds = some f →
      (init = some f ∨ f ∈ ds) ∧ (∀ d ∈ ds, dtLe f d = true)
        ∧ (∀ a, init = some a → dtLe f a = true) := by
  intro ds
  induction ds with
  | nil =>
    intro init f h
    have hinit : init = some f := h
    refine ⟨Or.inl hinit, by simp, ?_⟩
    intro a ha
    rw [hinit] at ha
    cases ha
    exact dtLe_refl f
  | cons d ds ih =>
    intro init f h
    obtain ⟨hmem, hbound, hinit⟩ := ih (updFirst init d) f h
    obtain ⟨m, hm⟩ := updFirst_isSome init d
    have hfm : dtLe f m = true := hinit m hm
    cases init with
    | none =>
      have hmd : m = d := by
        rw [updFirst] at hm
        cases hm
        rfl
      subst hmd
      refine ⟨?_, ?_, ?_⟩
      · rcases hmem with hh | hh
        · rw [hm] at hh
          cases hh
          exact Or.inr (List.mem_cons_self _ _)
        · exact Or.inr (List.mem_cons_of_mem _ hh)
      · intro d' hd'
        rcases List.mem_cons.mp hd' with rfl | hd'
        · exact hfm
        · exact hbound d' hd'
      · intro a ha
        cases ha
    | some a0 =>
      have hcase : (dtLt d a0 = true ∧ m = d) ∨ (dtLt d a0 = false ∧ m = a0) := by
        rw [updFirst] at hm
        by_cases hlt : dtLt d a0 = true
        · rw [if_pos hlt] at hm
          cases hm
          exact Or.inl ⟨hlt, rfl⟩
        · rw [if_neg hlt] at hm
          cases hm
          exact Or.inr ⟨Bool.not_eq_true _ ▸ Bool.of_not_eq_true hlt, rfl⟩
      have hfd : dtLe f d = true ∧ dtLe f a0 = true := by
        rcases hcase with ⟨hlt, rfl⟩ | ⟨hlt, rfl⟩
        · exact ⟨hfm, dtLe_trans hfm (dtLe_of_dtLt hlt)⟩
        · exact ⟨dtLe_trans hfm (dtLe_of_not_dtLt hlt), hfm⟩
      refine ⟨?_, ?_, ?_⟩
      · rcases hmem with hh | hh
        · rw [hm] at hh
          cases hh
          rcases hcase with ⟨_, rfl⟩ | ⟨_, rfl⟩
          · exact Or.inr (List.mem_cons_self _ _)
          · exact Or.inl rfl
        · exact Or.inr (List.mem_cons_of_mem _ hh)
      · intro d' hd'
        rcases List.mem_cons.mp hd' with rfl | hd'
        · exact hfd.1
        · exact hbound d' hd'
      · intro a ha
        cases ha
        exact hfd.2

theorem maxFold_spec : ∀ (ds : List DateTime) (init : Option DateTime) (f : DateTime),
    maxFold init ds = some f →
      (init = some f ∨ f ∈ ds) ∧ (∀ d ∈ ds, dtLe d f = true)
        ∧ (∀ a, init = some a → dtLe a f = true) := by
  intro ds
  induction ds with
  | nil =>
    intro init f h
    have hinit : init = some f := h
    refine ⟨Or.inl hinit, by simp, ?_⟩
    intro a ha
    rw [hinit] at ha
    cases ha
    exact dtLe_refl f
  | cons d ds ih =>
    intro init f h
    obtain ⟨hmem, hbound, hinit⟩ := ih (updLast init d) f h
    obtain ⟨m, hm⟩ := updLast_isSome init d
    have hfm : dtLe m f = true := hinit m hm
    cases init with
    | none =>
      have hmd : m = d := by
        rw [updLast] at hm
        cases hm
        rfl
      subst hmd
      refine ⟨?_, ?_, ?_⟩
      · rcases hmem with hh | hh
        · rw [hm] at hh
          cases hh
          exact Or.inr (List.mem_cons_self _ _)
        · exact Or.inr (List.mem_cons_of_mem _ hh)
      · intro d' hd'
        rcases List.mem_cons.mp hd' with rfl | hd'
        · exact hfm
        · exact hbound d' hd'
      · intro a ha
        cases ha
    | some a0 =>
      have hcase : (dtLt a0 d = true ∧ m = d) ∨ (dtLt a0 d = false ∧ m = a0) := by
        rw [updLast] at hm
        by_cases hlt : dtLt a0 d = true
        · rw [if_pos hlt] at hm
          cases hm
          exact Or.inl ⟨hlt, rfl⟩
        · rw [if_neg hlt] at hm
          cases hm
          exact Or.inr ⟨Bool.not_eq_true _ ▸ Bool.of_not_eq_true hlt, rfl⟩
      have hfd : dtLe d f = true ∧ dtLe a0 f = true := by
        rcases hcase with ⟨hlt, rfl⟩ | ⟨hlt, rfl⟩
        · exact ⟨hfm, dtLe_trans (dtLe_of_dtLt hlt) hfm⟩
        · exact ⟨dtLe_trans (dtLe_of_not_dtLt hlt) hfm, hfm⟩
      refine ⟨?_, ?_, ?_⟩
      · rcases hmem with hh | hh
        · rw [hm] at hh
          cases hh
          rcases hcase with ⟨_, rfl⟩ | ⟨_, rfl⟩
          · exact Or.inr (List.mem_cons_self _ _)
          · exact Or.inl rfl
        · exact Or.inr (List.mem_cons_of_mem _ hh)
      · intro d' hd'
        rcases List.mem_cons.mp hd' with rfl | hd'
        · exact hfd.1
        · exact hbound d' hd'
      · intro a ha
        cases ha
        exact hfd.2

theorem minFold_perm {ds1 ds2 : List DateTime} (hp : ds1.Perm ds2) :
    minFold none ds1 = minFold none ds2 := by
  cases h1 : minFold none ds1 with
  | none =>
    obtain ⟨_, hnil⟩ := minFold_eq_none ds1 none h1
    subst hnil
    rw [List.Perm.eq_nil hp.symm]
    rfl
  | some f1 =>
    cases h2 : minFold none ds2 with
    | none =>
      obtain ⟨_, hnil⟩ := minFold_eq_none ds2 none h2
      subst hnil
      rw [List.Perm.eq_nil hp] at h1
      rw [h1] at h2
      cases h2
    | some f2 =>
      obtain ⟨hm1, hb1, _⟩ := minFold_spec ds1 none f1 h1
      obtain ⟨hm2, hb2, _⟩ := minFold_spec ds2 none f2 h2
      have hf1 : f1 ∈ ds2 := hp.mem_iff.mp (hm1.resolve_left (by simp))
      have hf2 : f2 ∈ ds1 := hp.mem_iff.mpr (hm2.resolve_left (by simp))
      rw [dtLe_antisymm (hb1 f2 hf2) (hb2 f1 hf1)]

theorem maxFold_perm {ds1 ds2 : List DateTime} (hp : ds1.Perm ds2) :
    maxFold none ds1 = maxFold none ds2 := by
  cases h1 : maxFold none ds1 with
  | none =>
    obtain ⟨_, hnil⟩ := maxFold_eq_none ds1 none h1
    subst hnil
    rw [List.Perm.eq_nil hp.symm]
    rfl
  | some f1 =>
    cases h2 : maxFold none ds2 with
    | none =>
      obtain ⟨_, hnil⟩ := maxFold_eq_none ds2 none h2
      subst hnil
      rw [List.Perm.eq_nil hp] at h1
      rw [h1] at h2
      cases h2
    | some f2 =>
      obtain ⟨hm1, hb1, _⟩ := maxFold_spec ds1 none f1 h1
      obtain ⟨hm2, hb2, _⟩ := maxFold_spec ds2 none f2 h2
      have hf1 : f1 ∈ ds2 := hp.mem_iff.mp (hm1.resolve_left (by simp))
      have hf2 : f2 ∈ ds1 := hp.mem_iff.mpr (hm2.resolve_left (by simp))
      rw [dtLe_antisymm (hb2 f1 hf1) (hb1 f2 hf2)]

/-! ## Per-line contribution predicates -/

/-- Lines that add the author `a` to the unique-author set. -/
def addsAuthor (a : String) : Line → Bool
  | .record t =>
    truthy t.id && truthy t.created_at && truthy t.author_id && (t.author_id.getD "" == a)
  | .invalid _ => false

/-- Lines that increment the language counter of `g`. -/
def addsLang (g : String) : Line → Bool
  | .record t => truthy t.id && truthy t.created_at && truthy t.lang && (t.lang.getD "" == g)
  | .invalid _ => false

/-- Lines that insert identifier `x` into the month bucket of key `k`. -/
def insertsId (k x : String) : Line → Bool
  | .record t =>
    truthy t.id && truthy t.created_at &&
      (match parseTimestamp (t.created_at.getD "") with
       | some d => (month_key d == k) && (t.id.getD "" == x)
       | none => false)
  | .invalid _ => false

/-- Lines whose processing creates or extends the month bucket of key `k`. -/
def touchesKey (k : String) : Line → Bool
  | .record t =>
    truthy t.id && truthy t.created_at &&
      (match parseTimestamp (t.created_at.getD "") with
       | some d => month_key d == k
       | none => false)
  | .invalid _ => false

/-- Parsed timestamps of the lines that pass the inclusion guard. -/
def datesOf (lines : List Line) : List DateTime :=
  lines.filterMap fun l =>
    match l with
    | .record t =>
      if truthy t.id && truthy t.created_at then parseTimestamp (t.created_at.getD "")
      else none
    | .invalid _ => none

/-! ## Characterization of a completed run -/

/-- Full extensional description of the accumulator after a completed run:
no line aborts; the total counts the guard-passing lines; the author set,
language table, month buckets and first/last dates are determined by the
input lines through order-insensitive descriptions. -/
theorem run_ok_spec : ∀ (lines : List Line) (st : AggState) (ds : List Diag) (st' : AggState),
    run st lines = (ds, .ok st') →
    (∀ l ∈ lines, abortsB l = false)
    ∧ st'.total_tweets = st.total_tweets + lines.countP includedB
    ∧ (∀ a, a ∈ st'.unique_authors ↔ a ∈ st.unique_authors ∨ ∃ l ∈ lines, addsAuthor a l = true)
    ∧ (∀ g, (alookup st'.tweets_by_language g).getD 0
          = (alookup st.tweets_by_language g).getD 0 + lines.countP (addsLang g))
    ∧ (∀ k x, x ∈ (alookup st'.monthly_tweets k).getD []
          ↔ x ∈ (alookup st.monthly_tweets k).getD [] ∨ ∃ l ∈ lines, insertsId k x l = true)
    ∧ (∀ k, (alookup st'.monthly_tweets k).isSome = true
          ↔ (alookup st.monthly_tweets k).isSome = true ∨ ∃ l ∈ lines, touchesKey k l = true)
    ∧ st'.first_tweet_date = minFold st.first_tweet_date (datesOf lines)
    ∧ st'.last_tweet_date = maxFold st.last_tweet_date (datesOf lines) := by
  intro lines
  induction lines with
  | nil =>
    intro st ds st' h
    rw [run_nil] at h
    injection h with hds hok
    injection hok with hst
    subst hst
    refine ⟨by simp, by simp [List.countP_nil], ?_, ?_, ?_, ?_, rfl, rfl⟩
    · intro a
      simp
    · intro g
      simp [List.countP_nil]
    · intro k x
      simp
    · intro k
      simp
  | cons l ls ih =>
    intro st ds st' h
    cases l with
    | invalid raw =>
      rw [run_cons_ok ls (lineStep_invalid st raw)] at h
      have h2 : (run st ls).2 = Except.ok st' := by
        have := congrArg Prod.snd h
        simpa using this
      obtain ⟨iha, iht, ihau, ihl, ihb, ihk, ihf, ihl2⟩ :=
        ih st (run st ls).1 st' (by rw [← h2])
      refine ⟨?_, ?_, ?_, ?_, ?_, ?_, ?_, ?_⟩
      · intro l' hl'
        rcases List.mem_cons.mp hl' with rfl | hmem
        · rfl
        · exact iha l' hmem
      · rw [iht]
        simp [List.countP_cons, includedB]
      · intro a
        rw [ihau a]
        simp [addsAuthor]
      · intro g
        rw [ihl g]
        simp [List.countP_cons, addsLang]
      · intro k x
        rw [ihb k x]
        simp [insertsId]
      · intro k
        rw [ihk k]
        simp [touchesKey]
      · rw [ihf]
        simp [datesOf, List.filterMap_cons]
      · rw [ihl2]
        simp [datesOf, List.filterMap_cons]
    | record t =>
      cases hcond : truthy t.id && truthy t.created_at with
      | false =>
        rw [run_cons_ok ls (lineStep_skip st t hcond)] at h
        have h2 : (run st ls).2 = Except.ok st' := by
          have := congrArg Prod.snd h
          simpa using this
        obtain ⟨iha, iht, ihau, ihl, ihb, ihk, ihf, ihl2⟩ :=
          ih st (run st ls).1 st' (by rw [← h2])
        refine ⟨?_, ?_, ?_, ?_, ?_, ?_, ?_, ?_⟩
        · intro l' hl'
          rcases List.mem_cons.mp hl' with rfl | hmem
          · simp [abortsB, hcond]
          · exact iha l' hmem
        · rw [iht]
          simp [List.countP_cons, includedB, hcond]
        · intro a
          rw [ihau a]
          simp [addsAuthor, hcond]
        · intro g
          rw [ihl g]
          simp [List.countP_cons, addsLang, hcond]
        · intro k x
          rw [ihb k x]
          simp [insertsId, hcond]
        · intro k
          rw [ihk k]
          simp [touchesKey, hcond]
        · rw [ihf]
          have hcond' : ¬(truthy t.id = true ∧ truthy t.created_at = true) := by
            intro hc
            rw [hc.1, hc.2] at hcond
            simp at hcond
          simp [datesOf, List.filterMap_cons, hcond']
        · rw [ihl2]
          have hcond' : ¬(truthy t.id = true ∧ truthy t.created_at = true) := by
            intro hc
            rw [hc.1, hc.2] at hcond
            simp at hcond
          simp [datesOf, List.filterMap_cons, hcond']
      | true =>
        cases hp : parseTimestamp (t.created_at.getD "") with
        | none =>
          rw [run_cons_err ls (lineStep_abort st t hcond hp)] at h
          have := congrArg Prod.snd h
          simp at this
        | some d =>
          rw [run_cons_ok ls (lineStep_incl st t d hcond hp)] at h
          have h2 : (run (includeStep st t d) ls).2 = Except.ok st' := by
            have := congrArg Prod.snd h
            simpa using this
          obtain ⟨iha, iht, ihau, ihl, ihb, ihk, ihf, ihl2⟩ :=
            ih (includeStep st t d) (run (includeStep st t d) ls).1 st' (by rw [← h2])
          refine ⟨?_, ?_, ?_, ?_, ?_, ?_, ?_, ?_⟩
          · intro l' hl'
            rcases List.mem_cons.mp hl' with rfl | hmem
            · simp [abortsB, hcond, hp]
            · exact iha l' hmem
          · rw [iht]
            simp only [includeStep]
            simp [List.countP_cons, includedB, hcond]
            omega
          · intro a
            rw [ihau a]
            simp only [includeStep]
            cases htr : truthy t.author_id with
            | false =>
              simp only [htr, Bool.false_eq_true, if_false]
              simp [addsAuthor, hcond, htr]
            | true =>
              simp only [htr, if_true]
              rw [setAdd_mem]
              simp [addsAuthor, hcond, htr, beq_iff_eq]
              tauto
          · intro g
            rw [ihl g]
            simp only [includeStep]
            cases htr : truthy t.lang with
            | false =>
              simp only [htr, Bool.false_eq_true, if_false]
              simp [List.countP_cons, addsLang, hcond, htr]
            | true =>
              simp only [htr, if_true]
              rw [alookup_counterInc]
              simp only [List.countP_cons, addsLang, hcond, htr]
              by_cases hg : g = t.lang.getD ""
              · simp [hg, beq_iff_eq]
                omega
              · have hg' : ¬t.lang.getD "" = g := fun hh => hg hh.symm
                simp [hg, hg']
          · intro k x
            rw [ihb k x]
            simp only [includeStep]
            rw [alookup_bucketAdd]
            by_cases hk : k = month_key d
            · simp only [hk, if_true, Option.getD_some]
              rw [setAdd_mem]
              simp [insertsId, hcond, hp, beq_iff_eq, hk]
              tauto
            · have hk' : ¬month_key d = k := fun hh => hk hh.symm
              simp only [hk, if_false]
              simp [insertsId, hcond, hp, beq_iff_eq, hk']
          · intro k
            rw [ihk k]
            simp only [includeStep]
            rw [alookup_bucketAdd]
            by_cases hk : k = month_key d
            · simp [hk, touchesKey, hcond, hp, beq_iff_eq]
            · have hk' : ¬month_key d = k := fun hh => hk hh.symm
              simp [hk, touchesKey, hcond, hp, beq_iff_eq, hk']
          · rw [ihf]
            obtain ⟨hc1, hc2⟩ := Bool.and_eq_true_iff.mp hcond
            simp [datesOf, List.filterMap_cons, hc1, hc2, hp, includeStep, minFold,
              List.foldl_cons]
          · rw [ihl2]
            obtain ⟨hc1, hc2⟩ := Bool.and_eq_true_iff.mp hcond
            simp [datesOf, List.filterMap_cons, hc1, hc2, hp, includeStep, maxFold,
              List.foldl_cons]

/-! ## Completion, diagnostics, and splice lemmas -/

theorem run_no_aborts_ok : ∀ (lines : List Line) (st : AggState),
    (∀ l ∈ lines, abortsB l = false) → ∃ ds st', run st lines = (ds, Except.ok st') := by
  intro lines
  induction lines with
  | nil => exact fun st _ => ⟨[], st, rfl⟩
  | cons l ls ih =>
    intro st h
    have htail : ∀ l' ∈ ls, abortsB l' = false := fun l' hl' => h l' (List.mem_cons_of_mem _ hl')
    have hhead := h l (List.mem_cons_self _ _)
    cases l with
    | invalid raw =>
      obtain ⟨ds, st', hr⟩ := ih st htail
      exact ⟨_, st', by rw [run_cons_ok ls (lineStep_invalid st raw), hr]⟩
    | record t =>
      cases hcond : truthy t.id && truthy t.created_at with
      | false =>
        obtain ⟨ds, st', hr⟩ := ih st htail
        exact ⟨_, st', by rw [run_cons_ok ls (lineStep_skip st t hcond), hr]⟩
      | true =>
        cases hp : parseTimestamp (t.created_at.getD "") with
        | none =>
          simp [abortsB, hcond, hp] at hhead
        | some d =>
          obtain ⟨ds, st', hr⟩ := ih (includeStep st t d) htail
          exact ⟨_, st', by rw [run_cons_ok ls (lineStep_incl st t d hcond hp), hr]⟩

/-- Diagnostics of the second handler (`KeyError`). -/
def isMissingDiag : Diag → Bool
  | .missingFields _ => true
  | .invalidJson _ => false

theorem run_no_missing : ∀ (lines : List Line) (st : AggState),
    ((run st lines).1.any isMissingDiag) = false := by
  intro lines
  induction lines with
  | nil => intro st; rfl
  | cons l ls ih =>
    intro st
    cases l with
    | invalid raw =>
      rw [run_cons_ok ls (lineStep_invalid st raw)]
      simp [isMissingDiag, ih st]
    | record t =>
      cases hcond : truthy t.id && truthy t.created_at with
      | false =>
        rw [run_cons_ok ls (lineStep_skip st t hcond)]
        simp [ih st]
      | true =>
        cases hp : parseTimestamp (t.created_at.getD "") with
        | none =>
          rw [run_cons_err ls (lineStep_abort st t hcond hp)]
          rfl
        | some d =>
          rw [run_cons_ok ls (lineStep_incl st t d hcond hp)]
          simp [ih (includeStep st t d)]

theorem run_splice_invalid : ∀ (pre : List Line) (raw : String) (suf : List Line) (st : AggState),
    (run st (pre ++ Line.invalid raw :: suf)).2 = (run st (pre ++ suf)).2
    ∧ (∀ st', (run st (pre ++ Line.invalid raw :: suf)).2 = Except.ok st' →
        Diag.invalidJson raw ∈ (run st (pre ++ Line.invalid raw :: suf)).1) := by
  intro pre
  induction pre with
  | nil =>
    intro raw suf st
    constructor
    · rw [List.nil_append, List.nil_append, run_cons_ok suf (lineStep_invalid st raw)]
    · intro st' _
      rw [List.nil_append, run_cons_ok suf (lineStep_invalid st raw)]
      exact List.mem_append_left _ (List.mem_singleton_self _)
  | cons l pre ih =>
    intro raw suf st
    cases hs : lineStep st l with
    | ok p =>
      obtain ⟨st1, ds0⟩ := p
      rw [List.cons_append, List.cons_append,
        run_cons_ok (pre ++ Line.invalid raw :: suf) hs, run_cons_ok (pre ++ suf) hs]
      refine ⟨(ih raw suf st1).1, ?_⟩
      intro st' h2
      exact List.mem_append_right _ ((ih raw suf st1).2 st' h2)
    | error e =>
      rw [List.cons_append, List.cons_append,
        run_cons_err (pre ++ Line.invalid raw :: suf) hs, run_cons_err (pre ++ suf) hs]
      exact ⟨rfl, fun st' h2 => nomatch h2⟩

theorem run_splice_noop {l0 : Line} (hstep : ∀ st, lineStep st l0 = .ok (st, [])) :
    ∀ (pre suf : List Line) (st : AggState), run st (pre ++ l0 :: suf) = run st (pre ++ suf) := by
  intro pre
  induction pre with
  | nil =>
    intro suf st
    rw [List.nil_append, List.nil_append, run_cons_ok suf (hstep st)]
    rfl
  | cons l pre ih =>
    intro suf st
    rw [List.cons_append, List.cons_append]
    cases hs : lineStep st l with
    | ok p =>
      obtain ⟨st1, ds0⟩ := p
      rw [run_cons_ok (pre ++ l0 :: suf) hs, run_cons_ok (pre ++ suf) hs, ih suf st1]
    | error e =>
      rw [run_cons_err (pre ++ l0 :: suf) hs, run_cons_err (pre ++ suf) hs]

/-- Lines that leave the accumulator untouched. -/
def noopB : Line → Bool
  | .invalid _ => true
  | .record t => !(truthy t.id && truthy t.created_at)

theorem run_noop_state : ∀ (lines : List Line) (st : AggState),
    (∀ l ∈ lines, noopB l = true) → (run st lines).2 = Except.ok st := by
  intro lines
  induction lines with
  | nil => exact fun st _ => rfl
  | cons l ls ih =>
    intro st h
    have htail : ∀ l' ∈ ls, noopB l' = true := fun l' hl' => h l' (List.mem_cons_of_mem _ hl')
    have hhead := h l (List.mem_cons_self _ _)
    cases l with
    | invalid raw =>
      rw [run_cons_ok ls (lineStep_invalid st raw)]
      exact ih st htail
    | record t =>
      have hcond : (truthy t.id && truthy t.created_at) = false := by
        simpa only [noopB, Bool.not_eq_true'] using hhead
      rw [run_cons_ok ls (lineStep_skip st t hcond)]
      exact ih st htail

/-! ## The multiset of bucketed identifiers -/

/-- All identifiers stored across the month buckets, with multiplicity. -/
def allBucketIds (m : List (String × List String)) : List String :=
  (m.map Prod.snd).flatten

theorem allBucketIds_cons (k0 : String) (l0 : List String) (rest : List (String × List String)) :
    allBucketIds ((k0, l0) :: rest) = l0 ++ allBucketIds rest := by
  simp [allBucketIds]

theorem allBucketIds_bucketAdd : ∀ (m : List (String × List String)) (k x : String),
    x ∉ allBucketIds m → (allBucketIds (bucketAdd m k x)).Perm (x :: allBucketIds m) := by
  intro m
  induction m with
  | nil => exact fun k x _ => List.Perm.refl _
  | cons p rest ih =>
    intro k x hx
    obtain ⟨k0, l0⟩ := p
    rw [allBucketIds_cons] at hx
    have hxl : x ∉ l0 := fun hh => hx (List.mem_append_left _ hh)
    have hxr : x ∉ allBucketIds rest := fun hh => hx (List.mem_append_right _ hh)
    by_cases h0 : k0 = k
    · subst h0
      have e1 : allBucketIds (bucketAdd ((k0, l0) :: rest) k0 x)
          = (l0 ++ [x]) ++ allBucketIds rest := by
        simp [bucketAdd, setAdd, hxl, allBucketIds_cons, allBucketIds]
      rw [e1, allBucketIds_cons, List.append_assoc, List.singleton_append]
      exact List.perm_middle
    · have e1 : allBucketIds (bucketAdd ((k0, l0) :: rest) k x)
          = l0 ++ allBucketIds (bucketAdd rest k x) := by
        simp [bucketAdd, h0, allBucketIds_cons, allBucketIds]
      rw [e1, allBucketIds_cons]
      exact (List.Perm.append_left l0 (ih k x hxr)).trans List.perm_middle

/-- Identifiers of the guard-passing lines, in input order. -/
def includedIds (lines : List Line) : List String :=
  lines.filterMap fun l =>
    match l with
    | .record t => if truthy t.id && truthy t.created_at then some (t.id.getD "") else none
    | .invalid _ => none

theorem includedIds_length : ∀ lines : List Line,
    (includedIds lines).length = lines.countP includedB := by
  intro lines
  induction lines with
  | nil => rfl
  | cons l ls ih =>
    cases l with
    | invalid raw =>
      simp [includedIds, List.filterMap_cons, List.countP_cons, includedB] at ih ⊢
      exact ih
    | record t =>
      cases hcond : truthy t.id && truthy t.created_at with
      | false =>
        have hcond' : ¬(truthy t.id = true ∧ truthy t.created_at = true) := by
          intro hc
          rw [hc.1, hc.2] at hcond
          simp at hcond
        simp [includedIds, List.filterMap_cons, List.countP_cons, includedB, hcond', hcond] at ih ⊢
        exact ih
      | true =>
        obtain ⟨hc1, hc2⟩ := Bool.and_eq_true_iff.mp hcond
        simp [includedIds, List.filterMap_cons, List.countP_cons, includedB, hc1, hc2] at ih ⊢
        exact ih

theorem run_buckets_perm : ∀ (lines : List Line) (st : AggState) (ds : List Diag) (st' : AggState),
    run st lines = (ds, Except.ok st') →
    (allBucketIds st.monthly_tweets ++ includedIds lines).Nodup →
    (allBucketIds st'.monthly_tweets).Perm
      (allBucketIds st.monthly_tweets ++ includedIds lines) := by
  intro lines
  induction lines with
  | nil =>
    intro st ds st' h hnd
    rw [run_nil] at h
    injection h with hds hok
    injection hok with hst
    subst hst
    simp [includedIds]
  | cons l ls ih =>
    intro st ds st' h hnd
    cases l with
    | invalid raw =>
      rw [run_cons_ok ls (lineStep_invalid st raw)] at h
      have h2 : (run st ls).2 = Except.ok st' := by
        have := congrArg Prod.snd h
        simpa using this
      have hids : includedIds (Line.invalid raw :: ls) = includedIds ls := by
        simp [includedIds, List.filterMap_cons]
      rw [hids] at hnd ⊢
      exact ih st (run st ls).1 st' (by rw [← h2]) hnd
    | record t =>
      cases hcond : truthy t.id && truthy t.created_at with
      | false =>
        rw [run_cons_ok ls (lineStep_skip st t hcond)] at h
        have h2 : (run st ls).2 = Except.ok st' := by
          have := congrArg Prod.snd h
          simpa using this
        have hcond' : ¬(truthy t.id = true ∧ truthy t.created_at = true) := by
          intro hc
          rw [hc.1, hc.2] at hcond
          simp at hcond
        have hids : includedIds (Line.record t :: ls) = includedIds ls := by
          simp [includedIds, List.filterMap_cons, hcond']
        rw [hids] at hnd ⊢
        exact ih st (run st ls).1 st' (by rw [← h2]) hnd
      | true =>
        cases hp : parseTimestamp (t.created_at.getD "") with
        | none =>
          rw [run_cons_err ls (lineStep_abort st t hcond hp)] at h
          have := congrArg Prod.snd h
          simp at this
        | some d =>
          rw [run_cons_ok ls (lineStep_incl st t d hcond hp)] at h
          have h2 : (run (includeStep st t d) ls).2 = Except.ok st' := by
            have := congrArg Prod.snd h
            simpa using this
          obtain ⟨hc1, hc2⟩ := Bool.and_eq_true_iff.mp hcond
          have hids : includedIds (Line.record t :: ls)
              = t.id.getD "" :: includedIds ls := by
            simp [includedIds, List.filterMap_cons, hc1, hc2]
          rw [hids] at hnd ⊢
          have hperm0 : (allBucketIds st.monthly_tweets ++ t.id.getD "" :: includedIds ls).Perm
              ((t.id.getD "" :: allBucketIds st.monthly_tweets) ++ includedIds ls) := by
            exact List.perm_middle.trans (List.Perm.refl _)
          have hxnotin : t.id.getD "" ∉ allBucketIds st.monthly_tweets := by
            intro hin
            obtain ⟨_, _, hdisj⟩ := List.nodup_append.mp hnd
            exact hdisj hin (List.mem_cons_self _ _)
          have hstep : (allBucketIds (includeStep st t d).monthly_tweets).Perm
              (t.id.getD "" :: allBucketIds st.monthly_tweets) := by
            simp only [includeStep]
            exact allBucketIds_bucketAdd st.monthly_tweets (month_key d) (t.id.getD "") hxnotin
          have hnd1 : (allBucketIds (includeStep st t d).monthly_tweets ++ includedIds ls).Nodup := by
            have hndmid : ((t.id.getD "" :: allBucketIds st.monthly_tweets) ++ includedIds ls).Nodup :=
              hperm0.nodup hnd
            exact ((hstep.append_right (includedIds ls)).symm.nodup hndmid :)
          have hih := ih (includeStep st t d) (run (includeStep st t d) ls).1 st'
            (by rw [← h2]) hnd1
          exact (hih.trans ((hstep.append_right (includedIds ls)).trans hperm0.symm))

/-- Distinct keys of a duplicate-free bucket family hold disjoint identifier
sets. -/
theorem nodup_flatten_disjoint : ∀ (L : List (String × List String)),
    (allBucketIds L).Nodup →
    ∀ p ∈ L, ∀ q ∈ L, p.1 ≠ q.1 → ∀ x, x ∈ p.2 → x ∉ q.2 := by
  intro L
  induction L with
  | nil =>
    intro _ p hp
    simp at hp
  | cons hd rest ih =>
    intro hnd p hp q hq hne x hxp hxq
    have hnd' : (hd.2 ++ allBucketIds rest).Nodup := by
      simpa [allBucketIds] using hnd
    obtain ⟨hn1, hn2, hdisj⟩ := List.nodup_append.mp hnd'
    have hnd2 : (allBucketIds rest).Nodup := hn2
    rcases List.mem_cons.mp hp with rfl | hp' <;> rcases List.mem_cons.mp hq with rfl | hq'
    · exact hne rfl
    · have hxr : x ∈ allBucketIds rest :=
        List.mem_flatten.mpr ⟨q.2, List.mem_map.mpr ⟨q, hq', rfl⟩, hxq⟩
      exact hdisj hxp hxr
    · have hxr : x ∈ allBucketIds rest :=
        List.mem_flatten.mpr ⟨p.2, List.mem_map.mpr ⟨p, hp', rfl⟩, hxp⟩
      exact hdisj hxq hxr
    · exact ih hnd2 p hp' q hq' hne x hxp hxq

/-! ## Claim-level predicates and concrete fixtures -/

/-- Lines that yield an included record: the guard passes and the timestamp
parses, so all five statistics are updated. -/
def includesB : Line → Bool
  | .record t =>
    truthy t.id && truthy t.created_at && (parseTimestamp (t.created_at.getD "")).isSome
  | .invalid _ => false

/-- Lines that are decodable JSON objects whose timestamp, when the guard
passes, parses in the fixed format. -/
def validLineB : Line → Bool
  | .record t =>
    !(truthy t.id && truthy t.created_at) || (parseTimestamp (t.created_at.getD "")).isSome
  | .invalid _ => false

/-- Python `==` on two returned tuples: dictionaries, sets and counters
compare extensionally, numbers and datetimes structurally. -/
def ResultEq (s t : AggState) : Prop :=
  s.total_tweets = t.total_tweets
  ∧ (∀ a, a ∈ s.unique_authors ↔ a ∈ t.unique_authors)
  ∧ (∀ g, (alookup s.tweets_by_language g).getD 0 = (alookup t.tweets_by_language g).getD 0)
  ∧ (∀ k x, x ∈ (alookup s.monthly_tweets k).getD [] ↔ x ∈ (alookup t.monthly_tweets k).getD [])
  ∧ (∀ k, (alookup s.monthly_tweets k).isSome = true ↔ (alookup t.monthly_tweets k).isSome = true)
  ∧ s.first_tweet_date = t.first_tweet_date
  ∧ s.last_tweet_date = t.last_tweet_date

/-- Key format asserted by the specification sentence: a composite of the
four-digit year and the zero-padded two-digit month. -/
def month_key_claim (y m : Nat) : String :=
  "tweet_ids_"
    ++ (if y < 10 then "000" ++ decRepr y
        else if y < 100 then "00" ++ decRepr y
        else if y < 1000 then "0" ++ decRepr y
        else decRepr y)
    ++ "_" ++ fmt02 m

/-- Month keys of a completed aggregation, in insertion order. -/
def monthKeysOf (lines : List Line) : List String :=
  match (process_jsonl lines).2 with
  | .ok st => st.monthly_tweets.map Prod.fst
  | .error _ => []

def lineA : Line := .record ⟨some "1", some "2023-04-01T12:00:00.000000Z", some "a", some "en"⟩

def lineB : Line := .record ⟨some "2", some "2023-05-02T01:02:03.000004Z", some "b", some "ca"⟩

def lineDup : Line := .record ⟨some "1", some "2023-05-02T01:02:03.000004Z", some "b", some "ca"⟩

def lineBadTs : Line := .record ⟨some "1", some "oops", none, none⟩

def tweetNoCa : Tweet := ⟨some "7", none, some "z", some "fr"⟩

def lineY999 : Line := .record ⟨some "1", some "0999-04-01T12:00:00.000000Z", none, none⟩

/-- Aggregate of `[lineA, lineB]`. -/
def stAB : AggState :=
  { monthly_tweets := [("tweet_ids_2023_04", ["1"]), ("tweet_ids_2023_05", ["2"])]
    total_tweets := 2
    unique_authors := ["a", "b"]
    tweets_by_language := [("en", 1), ("ca", 1)]
    first_tweet_date := some ⟨2023, 4, 1, 12, 0, 0, 0⟩
    last_tweet_date := some ⟨2023, 5, 2, 1, 2, 3, 4⟩ }

/-- Aggregate of `[lineA, lineDup]`: the same identifier in two months. -/
def stDup : AggState :=
  { monthly_tweets := [("tweet_ids_2023_04", ["1"]), ("tweet_ids_2023_05", ["1"])]
    total_tweets := 2
    unique_authors := ["a", "b"]
    tweets_by_language := [("en", 1), ("ca", 1)]
    first_tweet_date := some ⟨2023, 4, 1, 12, 0, 0, 0⟩
    last_tweet_date := some ⟨2023, 5, 2, 1, 2, 3, 4⟩ }

/-! ## The claims -/

/-- Claim C3: for inputs whose lines are all JSON objects with parseable
timestamps, the aggregation completes and the total count equals the number
of lines with non-falsy `id` and non-falsy `created_at`. -/
theorem C3_total_counts_included (lines : List Line)
    (h : lines.all validLineB = true) :
    ∃ ds st, process_jsonl lines = (ds, Except.ok st)
      ∧ st.total_tweets = lines.countP includedB := by
  have hab : ∀ l ∈ lines, abortsB l = false := by
    intro l hl
    have hv := List.all_eq_true.mp h l hl
    cases l with
    | invalid raw => simp [validLineB] at hv
    | record t =>
      simp only [validLineB, Bool.or_eq_true, Bool.not_eq_true'] at hv
      cases hv with
      | inl hc => simp [abortsB, hc]
      | inr hs => simp [abortsB, hs]
  obtain ⟨ds, st, hr⟩ := run_no_aborts_ok lines initState hab
  obtain ⟨_, iht, _⟩ := run_ok_spec lines initState ds st hr
  exact ⟨ds, st, hr, by simpa [initState] using iht⟩

/-- Witness for C3 at a concrete three-line input. -/
theorem C3_witness :
    ([lineA, Line.record tweetNoCa, lineB].all validLineB = true)
    ∧ ∃ ds st, process_jsonl [lineA, Line.record tweetNoCa, lineB] = (ds, Except.ok st)
        ∧ st.total_tweets = [lineA, Line.record tweetNoCa, lineB].countP includedB :=
  ⟨by decide, C3_total_counts_included _ (by decide)⟩

/-- Claim C4: whenever the aggregation completes with a positive total, the
first timestamp is at most the last timestamp. -/
theorem C4_first_le_last (lines : List Line) (ds : List Diag) (st : AggState)
    (h : process_jsonl lines = (ds, Except.ok st)) (ht : 0 < st.total_tweets) :
    ∃ f l, st.first_tweet_date = some f ∧ st.last_tweet_date = some l ∧ dtLe f l = true := by
  obtain ⟨iha, iht, _, _, _, _, ihf, ihl2⟩ := run_ok_spec lines initState ds st h
  have hpos : 0 < lines.countP includedB := by
    rw [iht] at ht
    simpa [initState] using ht
  obtain ⟨l0, hl0, hp0⟩ := List.countP_pos_iff.mp hpos
  obtain ⟨t, rfl⟩ : ∃ t, l0 = Line.record t := by
    cases l0 with
    | invalid raw => simp [includedB] at hp0
    | record t => exact ⟨t, rfl⟩
  have hab := iha _ hl0
  have hcond : (truthy t.id && truthy t.created_at) = true := by
    simpa [includedB] using hp0
  obtain ⟨hc1, hc2⟩ := Bool.and_eq_true_iff.mp hcond
  obtain ⟨d, hd⟩ : ∃ d, parseTimestamp (t.created_at.getD "") = some d := by
    cases hps : parseTimestamp (t.created_at.getD "") with
    | none => simp [abortsB, hcond, hps] at hab
    | some d => exact ⟨d, rfl⟩
  have hdin : d ∈ datesOf lines := by
    apply List.mem_filterMap.mpr
    exact ⟨Line.record t, hl0, by simp [hc1, hc2, hd]⟩
  cases hf : st.first_tweet_date with
  | none =>
    rw [ihf] at hf
    obtain ⟨_, hnil⟩ := minFold_eq_none _ _ hf
    rw [hnil] at hdin
    simp at hdin
  | some f =>
    cases hl : st.last_tweet_date with
    | none =>
      rw [ihl2] at hl
      obtain ⟨_, hnil⟩ := maxFold_eq_none _ _ hl
      rw [hnil] at hdin
      simp at hdin
    | some lm =>
      refine ⟨f, lm, rfl, rfl, ?_⟩
      rw [ihf] at hf
      rw [ihl2] at hl
      obtain ⟨_, hb1, _⟩ := minFold_spec _ _ _ hf
      obtain ⟨hm2, _, _⟩ := maxFold_spec _ _ _ hl
      have hlin : lm ∈ datesOf lines := by
        rcases hm2 with hh | hh
        · exact absurd hh (by simp [initState])
        · exact hh
      exact hb1 lm hlin

/-- Witness for C4 at a concrete two-line input. -/
theorem C4_witness :
    process_jsonl [lineA, lineB] = ([], Except.ok stAB) ∧ 0 < stAB.total_tweets
    ∧ ∃ f l, stAB.first_tweet_date = some f ∧ stAB.last_tweet_date = some l
        ∧ dtLe f l = true :=
  ⟨rfl, by decide, C4_first_le_last [lineA, lineB] [] stAB rfl (by decide)⟩

/-- Claim C9: the `KeyError` handler is unreachable; no run ever emits the
missing-required-fields diagnostic. -/
theorem C9_missing_fields_unreachable (lines : List Line) :
    ((process_jsonl lines).1.any isMissingDiag) = false :=
  run_no_missing lines initState

/-- Claim C5: a non-decodable line is skipped with a diagnostic and changes
nothing: the outcome equals that of the input with the line removed. -/
theorem C5_invalid_json_skipped (pre suf : List Line) (raw : String) :
    (process_jsonl (pre ++ Line.invalid raw :: suf)).2 = (process_jsonl (pre ++ suf)).2
    ∧ ∀ st', (process_jsonl (pre ++ Line.invalid raw :: suf)).2 = Except.ok st' →
        Diag.invalidJson raw ∈ (process_jsonl (pre ++ Line.invalid raw :: suf)).1 :=
  run_splice_invalid pre raw suf initState

/-- Witness for C5 at a concrete spliced input. -/
theorem C5_witness :
    ((process_jsonl [lineA, Line.invalid "oops", lineB]).2
        = (process_jsonl [lineA, lineB]).2)
    ∧ Diag.invalidJson "oops" ∈ (process_jsonl [lineA, Line.invalid "oops", lineB]).1 :=
  ⟨(C5_invalid_json_skipped [lineA] [lineB] "oops").1,
   (C5_invalid_json_skipped [lineA] [lineB] "oops").2 stAB rfl⟩

/-- Claim C6: a record with non-falsy `id` but falsy `created_at` is excluded
from every statistic: the run is identical to the run without that line. -/
theorem C6_missing_created_at_excluded (pre suf : List Line) (t : Tweet)
    (_h1 : truthy t.id = true) (h2 : truthy t.created_at = false) :
    process_jsonl (pre ++ Line.record t :: suf) = process_jsonl (pre ++ suf) := by
  have hstep : ∀ st, lineStep st (Line.record t) = .ok (st, []) := fun st =>
    lineStep_skip st t (by rw [h2, Bool.and_false])
  exact run_splice_noop hstep pre suf initState

/-- Witness for C6 at a concrete spliced input. -/
theorem C6_witness :
    truthy tweetNoCa.id = true ∧ truthy tweetNoCa.created_at = false
    ∧ process_jsonl [lineA, Line.record tweetNoCa, lineB] = process_jsonl [lineA, lineB] :=
  ⟨by decide, by decide,
   C6_missing_created_at_excluded [lineA] [lineB] tweetNoCa (by decide) (by decide)⟩

/-- Claim C2 (code bug): a decodable record with non-falsy `id` and
`created_at` whose timestamp does not parse makes the whole run abort with
an uncaught `ValueError`; the following valid line is never processed and no
diagnostic is printed, contradicting the specified skip-and-continue. -/
theorem C2_bad_timestamp_aborts :
    process_jsonl [lineBadTs, lineB] = ([], Except.error Exc.valueError) := rfl

/-- Claim C10: when no line yields an included record and the aggregation
returns, every statistic is empty and both dates are `None`. -/
theorem C10_empty_result (lines : List Line) (ds : List Diag) (st : AggState)
    (h1 : ∀ l ∈ lines, includesB l = false)
    (h2 : process_jsonl lines = (ds, Except.ok st)) :
    st.monthly_tweets = [] ∧ st.total_tweets = 0 ∧ st.unique_authors = []
      ∧ st.tweets_by_language = [] ∧ st.first_tweet_date = none
      ∧ st.last_tweet_date = none := by
  obtain ⟨iha, _⟩ := run_ok_spec lines initState ds st h2
  have hnoop : ∀ l ∈ lines, noopB l = true := by
    intro l hl
    cases l with
    | invalid raw => rfl
    | record t =>
      have hinc := h1 _ hl
      have hab := iha _ hl
      simp only [noopB, Bool.not_eq_true']
      cases hcond : truthy t.id && truthy t.created_at with
      | false => rfl
      | true =>
        cases hps : parseTimestamp (t.created_at.getD "") with
        | none => simp [abortsB, hcond, hps] at hab
        | some d => simp [includesB, hcond, hps] at hinc
  have hrun := run_noop_state lines initState hnoop
  have h2' : run initState lines = (ds, Except.ok st) := h2
  rw [h2'] at hrun
  have hst : st = initState := by simpa using hrun
  rw [hst]
  exact ⟨rfl, rfl, rfl, rfl, rfl, rfl⟩

/-- Witness for C10 at a concrete input with no included record. -/
theorem C10_witness :
    (∀ l ∈ [Line.invalid "oops", Line.record tweetNoCa], includesB l = false)
    ∧ ∃ st : AggState,
        process_jsonl [Line.invalid "oops", Line.record tweetNoCa]
          = ([Diag.invalidJson "oops"], Except.ok st)
        ∧ st.monthly_tweets = [] ∧ st.total_tweets = 0 ∧ st.unique_authors = []
        ∧ st.tweets_by_language = [] ∧ st.first_tweet_date = none
        ∧ st.last_tweet_date = none :=
  ⟨by decide,
   ⟨initState, rfl,
    C10_empty_result [Line.invalid "oops", Line.record tweetNoCa]
      [Diag.invalidJson "oops"] initState (by decide) rfl⟩⟩

/-- Claim C1 as stated is false on the code: with the same identifier
included in two different months, the identifier sits in two distinct
buckets and the union is smaller than the total count. -/
theorem C1_counterexample :
    (process_jsonl [lineA, lineDup]).2 = Except.ok stDup
    ∧ ¬((allBucketIds stDup.monthly_tweets).dedup.length = stDup.total_tweets
        ∧ ∀ p ∈ stDup.monthly_tweets, ∀ q ∈ stDup.monthly_tweets,
            p.1 ≠ q.1 → ∀ x ∈ p.2, x ∉ q.2) := by
  constructor
  · rfl
  · intro ⟨hlen, _⟩
    simp [allBucketIds, stDup] at hlen

/-- Claim C1 (amended): when the included identifiers are pairwise distinct,
the month buckets partition them: the deduplicated union has size equal to
the total count, and distinct buckets are disjoint. -/
theorem C1_amended_partition (lines : List Line) (ds : List Diag) (st : AggState)
    (h : process_jsonl lines = (ds, Except.ok st))
    (hnd : (includedIds lines).Nodup) :
    (allBucketIds st.monthly_tweets).dedup.length = st.total_tweets
    ∧ ∀ p ∈ st.monthly_tweets, ∀ q ∈ st.monthly_tweets,
        p.1 ≠ q.1 → ∀ x ∈ p.2, x ∉ q.2 := by
  have hnd0 : (allBucketIds initState.monthly_tweets ++ includedIds lines).Nodup := by
    simpa [initState, allBucketIds] using hnd
  have hperm := run_buckets_perm lines initState ds st h hnd0
  have hperm' : (allBucketIds st.monthly_tweets).Perm (includedIds lines) := by
    simpa [initState, allBucketIds] using hperm
  have hndst : (allBucketIds st.monthly_tweets).Nodup := hperm'.symm.nodup hnd
  obtain ⟨_, iht, _⟩ := run_ok_spec lines initState ds st h
  constructor
  · rw [List.dedup_eq_self.mpr hndst, hperm'.length_eq, includedIds_length, iht]
    simp [initState]
  · intro p hp q hq hne x hxp
    exact nodup_flatten_disjoint st.monthly_tweets hndst p hp q hq hne x hxp

/-- Witness for the amended C1 at a concrete input with distinct ids. -/
theorem C1_witness :
    (includedIds [lineA, lineB]).Nodup
    ∧ ((allBucketIds stAB.monthly_tweets).dedup.length = stAB.total_tweets
        ∧ ∀ p ∈ stAB.monthly_tweets, ∀ q ∈ stAB.monthly_tweets,
            p.1 ≠ q.1 → ∀ x ∈ p.2, x ∉ q.2) :=
  ⟨by decide, C1_amended_partition [lineA, lineB] [] stAB rfl (by decide)⟩

/-- Claim C7 as stated is false on the code: for a year below 1000 the key
holds the unpadded year, not a four-digit one. -/
theorem C7_counterexample :
    parseTimestamp "0999-04-01T12:00:00.000000Z" = some ⟨999, 4, 1, 12, 0, 0, 0⟩
    ∧ monthKeysOf [lineY999] = ["tweet_ids_999_04"]
    ∧ month_key_claim 999 4 = "tweet_ids_0999_04"
    ∧ month_key ⟨999, 4, 1, 12, 0, 0, 0⟩ ≠ month_key_claim 999 4 := by
  refine ⟨by decide, rfl, by decide, by decide⟩

/-- Claim C7 (amended): the month key is the fixed prefix, the unpadded
decimal year, an underscore, and the zero-padded two-digit month; two parsed
timestamps receive the same key exactly when they share year and month. -/
theorem C7_amended_key (s1 s2 : String) (d1 d2 : DateTime)
    (h1 : parseTimestamp s1 = some d1) (h2 : parseTimestamp s2 = some d2) :
    month_key d1 = "tweet_ids_" ++ decRepr d1.year ++ "_" ++ fmt02 d1.month
    ∧ (month_key d1 = month_key d2 ↔ (d1.year = d2.year ∧ d1.month = d2.month)) := by
  refine ⟨rfl, ?_, ?_⟩
  · intro h
    obtain ⟨_, hm1⟩ := parseTimestamp_month_bounds h1
    obtain ⟨_, hm2⟩ := parseTimestamp_month_bounds h2
    exact month_key_inj (by omega) (by omega) h
  · rintro ⟨hy, hm⟩
    rw [month_key, month_key, hy, hm]

/-- Witness for the amended C7 at two concrete timestamps of one month. -/
theorem C7_witness :
    parseTimestamp "2023-04-01T12:00:00.000000Z" = some ⟨2023, 4, 1, 12, 0, 0, 0⟩
    ∧ parseTimestamp "2023-04-30T01:00:00.000000Z" = some ⟨2023, 4, 30, 1, 0, 0, 0⟩
    ∧ (month_key ⟨2023, 4, 1, 12, 0, 0, 0⟩ = month_key ⟨2023, 4, 30, 1, 0, 0, 0⟩
        ↔ ((2023 : Nat) = 2023 ∧ (4 : Nat) = 4)) :=
  ⟨by decide, by decide,
   (C7_amended_key "2023-04-01T12:00:00.000000Z" "2023-04-30T01:00:00.000000Z"
     ⟨2023, 4, 1, 12, 0, 0, 0⟩ ⟨2023, 4, 30, 1, 0, 0, 0⟩ (by decide) (by decide)).2⟩

/-- Claim C8: aggregation is deterministic, and a permutation of the input
lines yields an equal returned tuple (dictionaries, sets and counters
compared extensionally, as Python equality does). -/
theorem C8_perm_invariant (lines1 lines2 : List Line) (hperm : lines1.Perm lines2)
    (ds1 : List Diag) (st1 : AggState)
    (h1 : process_jsonl lines1 = (ds1, Except.ok st1)) :
    process_jsonl lines1 = process_jsonl lines1
    ∧ ∃ ds2 st2, process_jsonl lines2 = (ds2, Except.ok st2) ∧ ResultEq st1 st2 := by
  refine ⟨rfl, ?_⟩
  obtain ⟨iha1, iht1, ihau1, ihl1, ihb1, ihk1, ihf1, ihl21⟩ :=
    run_ok_spec lines1 initState ds1 st1 h1
  have hab2 : ∀ l ∈ lines2, abortsB l = false := fun l hl => iha1 l (hperm.mem_iff.mpr hl)
  obtain ⟨ds2, st2, h2⟩ := run_no_aborts_ok lines2 initState hab2
  obtain ⟨_, iht2, ihau2, ihl2, ihb2, ihk2, ihf2, ihl22⟩ :=
    run_ok_spec lines2 initState ds2 st2 h2
  refine ⟨ds2, st2, h2, ?_, ?_, ?_, ?_, ?_, ?_, ?_⟩
  · rw [iht1, iht2, hperm.countP_eq]
  · intro a
    rw [ihau1 a, ihau2 a]
    exact or_congr Iff.rfl
      ⟨fun ⟨l, hl, hP⟩ => ⟨l, hperm.mem_iff.mp hl, hP⟩,
       fun ⟨l, hl, hP⟩ => ⟨l, hperm.mem_iff.mpr hl, hP⟩⟩
  · intro g
    rw [ihl1 g, ihl2 g, hperm.countP_eq]
  · intro k x
    rw [ihb1 k x, ihb2 k x]
    exact or_congr Iff.rfl
      ⟨fun ⟨l, hl, hP⟩ => ⟨l, hperm.mem_iff.mp hl, hP⟩,
       fun ⟨l, hl, hP⟩ => ⟨l, hperm.mem_iff.mpr hl, hP⟩⟩
  · intro k
    rw [ihk1 k, ihk2 k]
    exact or_congr Iff.rfl
      ⟨fun ⟨l, hl, hP⟩ => ⟨l, hperm.mem_iff.mp hl, hP⟩,
       fun ⟨l, hl, hP⟩ => ⟨l, hperm.mem_iff.mpr hl, hP⟩⟩
  · rw [ihf1, ihf2]
    exact minFold_perm (hperm.filterMap _)
  · rw [ihl21, ihl22]
    exact maxFold_perm (hperm.filterMap _)

/-- Witness for C8 at a concrete transposition of two lines. -/
theorem C8_witness :
    [lineA, lineB].Perm [lineB, lineA]
    ∧ ∃ ds2 st2, process_jsonl [lineB, lineA] = (ds2, Except.ok st2) ∧ ResultEq stAB st2 :=
  ⟨by decide,
   (C8_perm_invariant [lineA, lineB] [lineB, lineA] (by decide) [] stAB rfl).2⟩
